import Mathlib

/-!
Verification of the fictional-people record pipeline against its design
specification.  The source program (src/fictional-people.py) is shallowly
embedded here: Python strings are modelled as `List Char` (ASCII reading of
the Python text semantics: `str.strip`, `re` character classes `\s`, `\d`,
`str.title`, `int(...)` are modelled on ASCII characters), bounded random
choices (`random.randint`) are passed in as explicit parameters constrained
by hypotheses, and the file/model side effects of the batch pipeline are
modelled by explicit state passing together with a trace of store writes.
-/

namespace FictionalPeople

/-- ASCII whitespace, as stripped by Python `str.strip()` and matched by the
regex class `\s` (space, tab, newline, carriage return, vertical tab,
form feed). -/
def isSpace (c : Char) : Bool :=
  c = ' ' || c = '\t' || c = '\n' || c = '\r' || c = '\x0b' || c = '\x0c'

/-- Embeds Python `str.strip()`: drop leading and trailing whitespace. -/
def stripChars (l : List Char) : List Char :=
  ((l.dropWhile isSpace).reverse.dropWhile isSpace).reverse

/-- State machine embedding of `re.sub(r"\s+", " ", s)`: each maximal run of
whitespace characters is replaced by a single space.  The flag records
whether the previous character was whitespace (so the run is already
rendered). -/
def collapseWSAux : List Char → Bool → List Char
  | [], _ => []
  | c :: cs, prevSpace =>
    if isSpace c then
      if prevSpace then collapseWSAux cs true else ' ' :: collapseWSAux cs true
    else c :: collapseWSAux cs false

/-- Embeds `re.sub(r"\s+", " ", s)`. -/
def collapseWS (l : List Char) : List Char := collapseWSAux l false

/-- Embeds the loop `while note.endswith(".."): note = note[:-1]`, acting on
the REVERSED string: while the (reversed) string starts with two periods,
drop the first (i.e. drop the last character of the original string). -/
def collapseDotsRev : List Char → List Char
  | [] => []
  | [c] => [c]
  | a :: b :: rest =>
    if a = '.' && b = '.' then collapseDotsRev (b :: rest) else a :: b :: rest

/-- The trailing-period normalization loop of `one_sentence` (lines 52-53). -/
def trimDots (l : List Char) : List Char := (collapseDotsRev l.reverse).reverse

/-- Embeds `s.endswith(".")`. -/
def endsDot (l : List Char) : Bool :=
  match l.reverse with
  | c :: _ => c = '.'
  | [] => false

/-- Embeds `s.endswith("..")` (the string ends in at least two periods). -/
def endsDD (l : List Char) : Bool :=
  match l.reverse with
  | a :: b :: _ => a = '.' && b = '.'
  | _ => false

/-- The fixed filler sentence used when fewer than 20 characters remain. -/
def fillerNote : List Char :=
  ['N', 'o', 't', 'h', 'i', 'n', 'g', ' ', 'n', 'o', 't', 'a', 'b', 'l', 'e', '.']

/-- Stage 1 of `one_sentence` (lines 45-47): `note = (note or "").strip()`
then `note = re.sub(r"\s+", " ", note)`.  The `None`-guard is modelled by
totality over `List Char`. -/
def osColl (note : List Char) : List Char := collapseWS (stripChars note)

/-- Stage 2 (lines 48-49): `if len(note) < 20: note = "Nothing notable."`. -/
def osFill (note : List Char) : List Char :=
  if (osColl note).length < 20 then fillerNote else osColl note

/-- Stage 3 (lines 50-51): `if not note.endswith("."): note += "."`. -/
def osDot (note : List Char) : List Char :=
  if endsDot (osFill note) then osFill note else osFill note ++ ['.']

/-- Embeds `one_sentence` (src/fictional-people.py lines 44-54): the staged
strip/collapse, filler substitution and period append above, then the
trailing-period loop `while note.endswith(".."): note = note[:-1]` and the
truncation `note[:60]`. -/
def one_sentence (note : List Char) : List Char := (trimDots (osDot note)).take 60

/-- Embeds Python `s.split("-")`: split at every dash, keeping empty parts. -/
def splitDash : List Char → List (List Char)
  | [] => [[]]
  | c :: cs =>
    if c = '-' then [] :: splitDash cs
    else
      match splitDash cs with
      | p :: ps => (c :: p) :: ps
      | [] => [[c]]

/-- Digit-string value, most significant first. -/
def natOfDigits (l : List Char) : Nat :=
  l.foldl (fun acc c => 10 * acc + (c.toNat - 48)) 0

/-- Embeds `int(part)` for the dash-separated parts of a date string: strip
whitespace, allow an optional leading plus sign, then require a nonempty run
of ASCII digits.  A minus sign cannot occur because `split("-")` has already
consumed every dash.  Pythonic extras (underscore digit separators, non-ASCII
decimal digits) are outside this ASCII model. -/
def parsePyNat (s : List Char) : Option Nat :=
  let t := stripChars s
  let t := match t with
    | '+' :: r => r
    | r => r
  if t ≠ [] && t.all Char.isDigit then some (natOfDigits t) else none

/-- Embeds the parse attempt `y, m, day = map(int, d.split("-"))`: succeeds
exactly when the split yields three parts and each parses as an integer. -/
def parseDOB (d : List Char) : Option (Nat × Nat × Nat) :=
  match splitDash d with
  | [a, b, c] =>
    match parsePyNat a, parsePyNat b, parsePyNat c with
    | some y, some m, some day => some (y, m, day)
    | _, _, _ => none
  | _ => none

/-- Character for a decimal digit value. -/
def digitChar (n : Nat) : Char := Char.ofNat (48 + n)

/-- Fuel-driven accumulator for decimal rendering (fuel `n` always suffices
since `n / 10` shrinks at least as fast as the fuel). -/
def natDigitsAux : Nat → Nat → List Char → List Char
  | 0, _, acc => acc
  | fuel + 1, n, acc =>
    if n = 0 then acc else natDigitsAux fuel (n / 10) (digitChar (n % 10) :: acc)

/-- Embeds `str(n)` for a natural number: decimal digits, no leading zeros. -/
def natDigits (n : Nat) : List Char :=
  if n = 0 then ['0'] else natDigitsAux n n []

/-- Embeds the zero-padded field `f"{n:0wd}"` for a non-negative value. -/
def pyPad (w n : Nat) : List Char :=
  List.replicate (w - (natDigits n).length) '0' ++ natDigits n

/-- Embeds the f-string `f"{y:04d}-{m:02d}-{day:02d}"`. -/
def fmtDate (y m day : Nat) : List Char :=
  pyPad 4 y ++ ['-'] ++ pyPad 2 m ++ ['-'] ++ pyPad 2 day

/-- Embeds `clamp_dob` (src/fictional-people.py lines 23-36).  The three
`random.randint` draws of the parse-failure branch are passed in as the
parameters `ry`, `rm`, `rd`; theorems constrain them to the ranges the code
requests (1920-2024, 1-12, 1-28). -/
def clamp_dob (d : List Char) (ry rm rd : Nat) : List Char :=
  match parseDOB d with
  | none => fmtDate ry rm rd
  | some (y, m, day) =>
    fmtDate (min (max y 1920) 2024) (min (max m 1) 12) (min (max day 1) 28)

/-- The output shape required of a date of birth: the zero-padded rendering
of some components with year in 1920-2024, month in 1-12, day in 1-28. -/
def dobShape (s : List Char) : Prop :=
  ∃ y m day, 1920 ≤ y ∧ y ≤ 2024 ∧ 1 ≤ m ∧ m ≤ 12 ∧ 1 ≤ day ∧ day ≤ 28 ∧
    s = fmtDate y m day

/-- Embeds `sanitize_zip` (src/fictional-people.py lines 38-42): strip every
non-digit (`re.sub(r"\D", "", z)`, ASCII model), and if five digits do not
remain, replace wholesale with `str(random.randint(10000, 99999))`, passed in
as the parameter `r`. -/
def sanitize_zip (z : List Char) (r : Nat) : List Char :=
  let digits := z.filter Char.isDigit
  if digits.length ≠ 5 then natDigits r else digits

/-- ASCII letter (the cased characters of the ASCII model). -/
def isAsciiAlpha (c : Char) : Bool :=
  ('a' ≤ c && c ≤ 'z') || ('A' ≤ c && c ≤ 'Z')

/-- State machine embedding of Python `str.title()` (ASCII model): a cased
character is uppercased when the previous character was not cased and
lowercased otherwise; uncased characters pass through and reset the state. -/
def pyTitleAux : List Char → Bool → List Char
  | [], _ => []
  | c :: cs, prevCased =>
    if isAsciiAlpha c then
      (if prevCased then c.toLower else c.toUpper) :: pyTitleAux cs true
    else c :: pyTitleAux cs false

/-- Embeds `str.title()`. -/
def pyTitle (l : List Char) : List Char := pyTitleAux l false

/-- Embeds the name cleaning expression `(p.get(...) or "").strip().title()[:12]`
(src/fictional-people.py lines 114-115). -/
def cleanName (s : List Char) : List Char := (pyTitle (stripChars s)).take 12

/-- Modelled from the claim wording only (for comparison with `cleanName`):
title-casing where the words are the whitespace-separated chunks, the first
character of each word is uppercased and the rest lowercased.  The flag
records whether the scan is inside a word. -/
def specWordTitleAux : List Char → Bool → List Char
  | [], _ => []
  | c :: cs, inWord =>
    if isSpace c then c :: specWordTitleAux cs false
    else (if inWord then c.toLower else c.toUpper) :: specWordTitleAux cs true

/-- The name cleaner the claim describes: trim, whitespace-word title-casing,
truncate to 12. -/
def specWordName (s : List Char) : List Char :=
  (specWordTitleAux (stripChars s) false).take 12

/-- Uppercase the first character, lowercase the rest. -/
def upperFirstLowerRest : List Char → List Char
  | [] => []
  | c :: cs => c.toUpper :: cs.map Char.toLower

/-- A `dropWhile` never lengthens a list. -/
theorem dropWhile_len_le (p : Char → Bool) :
    ∀ l : List Char, (l.dropWhile p).length ≤ l.length := by
  intro l
  induction l with
  | nil => simp [List.dropWhile]
  | cons c cs ih =>
    by_cases h : p c
    · simp only [List.dropWhile, h]
      exact Nat.le_succ_of_le ih
    · simp [List.dropWhile, h]

/-- Run-based description of title-casing: each maximal run of letters has
its first letter uppercased and the remaining letters lowercased; every
non-letter character separates runs and passes through unchanged.  In the
letter branch, `c :: cs.takeWhile isAsciiAlpha` is the maximal letter run
starting at `c` and `cs.dropWhile isAsciiAlpha` is the remainder. -/
def specRunTitle : List Char → List Char
  | [] => []
  | c :: cs =>
    if isAsciiAlpha c then
      upperFirstLowerRest (c :: cs.takeWhile isAsciiAlpha) ++
        specRunTitle (cs.dropWhile isAsciiAlpha)
    else c :: specRunTitle cs
termination_by l => l.length
decreasing_by
  · exact Nat.lt_succ_of_le (dropWhile_len_le _ _)
  · simp

/-- The two extraction failures of `parse_json_strict` (the `ValueError`s of
src/fictional-people.py lines 60 and 72). -/
inductive JErr where
  | noArrayFound
  | unbalancedArray
deriving DecidableEq

/-- Embeds the tail of the regex `\[\s*{`: after an array-open bracket, zero
or more whitespace characters and then an object-open brace. -/
def wsThenBrace : List Char → Bool
  | [] => false
  | c :: cs => if c = '{' then true else if isSpace c then wsThenBrace cs else false

/-- Embeds `re.search(r"\[\s*{", text)` returning the (leftmost) match start
position; `i` is the index of the current head of the remaining text. -/
def findStartAux : List Char → Nat → Option Nat
  | [], _ => none
  | c :: cs, i =>
    if c = '[' && wsThenBrace cs then some i else findStartAux cs (i + 1)

/-- Embeds the bracket-depth scan of `parse_json_strict` (lines 63-71): walk
the remaining text, incrementing the depth on `[`, decrementing on `]`, and
returning the processed slice (accumulated in reverse) once the depth returns
to zero; `none` models falling off the end of the text. -/
def scanAux : List Char → Int → List Char → Option (List Char)
  | [], _, _ => none
  | c :: cs, depth, acc =>
    if c = '[' then scanAux cs (depth + 1) (c :: acc)
    else if c = ']' then
      if depth - 1 = 0 then some (c :: acc).reverse else scanAux cs (depth - 1) (c :: acc)
    else scanAux cs depth (c :: acc)

/-- Embeds `parse_json_strict` (src/fictional-people.py lines 56-72) up to
JSON decoding: the success value is the balanced candidate slice
`text[start : i + 1]` (the `json.loads` call on that slice is thin plumbing
performed by the pipeline's decode collaborator, modelled separately). -/
def parse_json_strict (text : List Char) : Except JErr (List Char) :=
  match findStartAux text 0 with
  | none => Except.error JErr.noArrayFound
  | some s =>
    match scanAux (text.drop s) 0 [] with
    | none => Except.error JErr.unbalancedArray
    | some arr => Except.ok arr

/-- The regex `\[\s*{` matches at position `p` of `t`. -/
def isArrStartAt (t : List Char) (p : Nat) : Prop :=
  t[p]? = some '[' ∧ wsThenBrace (t.drop (p + 1)) = true

/-- The claim wording for start detection: some array-open bracket is
followed, with only whitespace between, by an object-open brace. -/
def hasArrayStart (t : List Char) : Prop :=
  ∃ i j : Nat, i < j ∧ t[i]? = some '[' ∧ t[j]? = some '{' ∧
    ∀ k : Nat, i < k → k < j → ∃ c, t[k]? = some c ∧ isSpace c = true

/-- Array-bracket balance of a slice: occurrences of `[` minus occurrences
of `]` (object braces are not tracked, mirroring the code). -/
def balInt (l : List Char) : Int :=
  (l.count '[' : Int) - (l.count ']' : Int)

/-- A decoded model record before repair: the five expected keys, each
possibly missing (`p.get(key) or ""` supplies the empty-string default). -/
structure RawPerson where
  firstName : Option (List Char)
  lastName : Option (List Char)
  dateOfBirth : Option (List Char)
  zipCode : Option (List Char)
  notes : Option (List Char)
deriving DecidableEq

/-- A cleaned record as persisted to the store. -/
structure Person where
  firstName : List Char
  lastName : List Char
  dateOfBirth : List Char
  zipCode : List Char
  notes : List Char
deriving DecidableEq

/-- One record's worth of random draws (date fallback and zip fallback). -/
structure Rand where
  ry : Nat
  rm : Nat
  rd : Nat
  rz : Nat
deriving DecidableEq

/-- The fixed placeholder first name. -/
def altFirst : List Char := ['A', 'l', 'e', 'x']

/-- The fixed placeholder last name. -/
def altLast : List Char := ['R', 'i', 'v', 'e', 'r', 'a']

/-- Embeds the per-record repair of `generate_people` (lines 113-126):
clean both names, clamp the date, sanitize the zip, normalize the notes, and
substitute the placeholder names when a cleaned name is empty. -/
def cleanPerson (p : RawPerson) (r : Rand) : Person :=
  let first := cleanName (p.firstName.getD [])
  let last := cleanName (p.lastName.getD [])
  { firstName := if first = [] then altFirst else first
    lastName := if last = [] then altLast else last
    dateOfBirth := clamp_dob (p.dateOfBirth.getD []) r.ry r.rm r.rd
    zipCode := sanitize_zip (p.zipCode.getD []) r.rz
    notes := one_sentence (p.notes.getD []) }

/-- Embeds the `for p in data: ... cleaned.append(...)` loop: `i` indexes the
random draws consumed so far, `acc` is the list built up by `append`. -/
def cleanLoop (rnd : Nat → Rand) : List RawPerson → Nat → List Person → List Person
  | [], _, acc => acc
  | p :: ps, i, acc => cleanLoop rnd ps (i + 1) (acc ++ [cleanPerson p (rnd i)])

/-- The failures that abort a batch of `generate_people` before any store
write: the model call, the strict array extraction, or JSON decoding. -/
inductive PipeErr where
  | generationFailure
  | extract (e : JErr)
  | decodeFailure
deriving DecidableEq

/-- External collaborators of one batch, passed explicitly: the raw text the
model call produced (or its failure), the JSON decoding of the extracted
slice (or its failure), and the stream of random draws. -/
structure PipeEnv where
  modelText : Except Unit (List Char)
  decode : List Char → Except Unit (List RawPerson)
  rnd : Nat → Rand

/-- Embeds `generate_people` (src/fictional-people.py lines 98-133) as
explicit state passing: `stored` is the result of reading the store file
(`none` models a missing, corrupt, or non-array file, which the code treats
as the empty prior store), and the second component is the trace of whole
store writes performed, in order.  Any failure raises before the store file
is opened for writing, so a failing run has an empty write trace. -/
def generate_people_io (env : PipeEnv) (stored : Option (List Person)) :
    Except PipeErr Unit × List (List Person) :=
  match env.modelText with
  | Except.error _ => (Except.error PipeErr.generationFailure, [])
  | Except.ok raw =>
    match parse_json_strict raw with
    | Except.error e => (Except.error (PipeErr.extract e), [])
    | Except.ok slice =>
      match env.decode slice with
      | Except.error _ => (Except.error PipeErr.decodeFailure, [])
      | Except.ok data =>
        let existing := stored.getD []
        let cleaned := cleanLoop env.rnd data 0 []
        (Except.ok (), [cleaned ++ existing])

/-! Structural invariants of whitespace-normalized text. -/

/-- Every whitespace character of the list is a plain space. -/
def wsOnly (l : List Char) : Prop := ∀ c ∈ l, isSpace c = true → c = ' '

/-- No two adjacent characters are both spaces. -/
def noDbl : List Char → Bool
  | [] => true
  | [_] => true
  | a :: b :: rest => !(a = ' ' && b = ' ') && noDbl (b :: rest)

theorem noDbl_cons {a : Char} {l : List Char} :
    noDbl (a :: l) = true ↔
      noDbl l = true ∧ ∀ b, l.head? = some b → ¬(a = ' ' ∧ b = ' ') := by
  cases l with
  | nil => simp [noDbl]
  | cons b rest =>
    simp only [noDbl, Bool.and_eq_true, Bool.not_eq_true', List.head?_cons]
    constructor
    · rintro ⟨h1, h2⟩
      refine ⟨h2, ?_⟩
      rintro x hx ⟨rfl, rfl⟩
      simp only [Option.some.injEq] at hx
      subst hx
      simp at h1
    · rintro ⟨h2, h1⟩
      refine ⟨?_, h2⟩
      by_contra hcon
      rw [Bool.not_eq_false] at hcon
      simp only [Bool.and_eq_true, decide_eq_true_eq] at hcon
      exact h1 b rfl ⟨hcon.1, hcon.2⟩

theorem wsOnly_take {l : List Char} (n : Nat) (h : wsOnly l) : wsOnly (l.take n) :=
  fun c hc => h c (List.take_subset _ _ hc)

theorem noDbl_take (l : List Char) :
    ∀ n, noDbl l = true → noDbl (l.take n) = true := by
  induction l using noDbl.induct with
  | case1 => intro n _; simp [noDbl]
  | case2 c => intro n _; cases n <;> simp [noDbl, List.take]
  | case3 a b rest ih =>
    intro n h
    rw [noDbl_cons] at h
    cases n with
    | zero => simp [noDbl]
    | succ m =>
      cases m with
      | zero => simp [noDbl, List.take]
      | succ k =>
        simp only [List.take]
        rw [noDbl_cons]
        refine ⟨ih (k + 1) h.1, ?_⟩
        intro x hx
        simp only [List.take, List.head?_cons, Option.some.injEq] at hx
        subst hx
        exact h.2 b rfl

/-- The head of a list is a member of it. -/
theorem head?_mem {l : List Char} {c : Char} (h : l.head? = some c) : c ∈ l := by
  cases l with
  | nil => simp at h
  | cons a as =>
    simp only [List.head?_cons, Option.some.injEq] at h
    subst h
    exact List.mem_cons_self a as

theorem wsOnly_append_single {l : List Char} {c : Char} (h : wsOnly l)
    (hc : isSpace c = false) : wsOnly (l ++ [c]) := by
  intro d hd hsp
  rcases List.mem_append.mp hd with hd | hd
  · exact h d hd hsp
  · simp only [List.mem_singleton] at hd
    subst hd
    rw [hsp] at hc
    exact absurd hc (by simp)

theorem noDbl_append_single {l : List Char} {c : Char} (h : noDbl l = true)
    (hc : c ≠ ' ') : noDbl (l ++ [c]) = true := by
  induction l with
  | nil => simp [noDbl]
  | cons a l ih =>
    rw [noDbl_cons] at h
    rw [List.cons_append, noDbl_cons]
    refine ⟨ih h.1, ?_⟩
    intro b hb
    cases l with
    | nil =>
      simp only [List.nil_append, List.head?_cons, Option.some.injEq] at hb
      subst hb
      rintro ⟨_, h2⟩
      exact hc h2
    | cons x xs =>
      simp only [List.cons_append, List.head?_cons, Option.some.injEq] at hb
      subst hb
      exact h.2 x rfl

/-! Properties of the whitespace-collapsing state machine. -/

theorem collapse_wsOnly (l : List Char) : ∀ b, wsOnly (collapseWSAux l b) := by
  induction l with
  | nil => intro b; simp [collapseWSAux, wsOnly]
  | cons c cs ih =>
    intro b
    by_cases h : isSpace c = true
    · cases b with
      | true => simpa [collapseWSAux, h] using ih true
      | false =>
        simp only [collapseWSAux, h, if_true]
        intro d hd hsp
        rcases List.mem_cons.mp hd with rfl | hd
        · rfl
        · exact ih true d hd hsp
    · simp only [collapseWSAux, h, Bool.false_eq_true, if_false]
      intro d hd hsp
      rcases List.mem_cons.mp hd with rfl | hd
      · rw [hsp] at h; exact absurd rfl h
      · exact ih false d hd hsp

theorem collapse_true_head :
    ∀ (cs : List Char) (c : Char), (collapseWSAux cs true).head? = some c →
      isSpace c = false := by
  intro cs
  induction cs with
  | nil => intro c h; simp [collapseWSAux] at h
  | cons a as ih =>
    intro c h
    by_cases ha : isSpace a = true
    · rw [collapseWSAux, if_pos ha, if_pos rfl] at h
      exact ih c h
    · rw [collapseWSAux, if_neg (by simp [ha])] at h
      simp only [List.head?_cons, Option.some.injEq] at h
      subst h
      simpa using ha

theorem collapse_false_head {l : List Char} {c : Char} (h : l.head? = some c)
    (hc : isSpace c = false) : (collapseWSAux l false).head? = some c := by
  cases l with
  | nil => simp at h
  | cons a as =>
    simp only [List.head?_cons, Option.some.injEq] at h
    subst h
    rw [collapseWSAux, if_neg (by simp [hc])]
    rfl

theorem collapse_noDbl (l : List Char) : ∀ b, noDbl (collapseWSAux l b) = true := by
  induction l with
  | nil => intro b; simp [collapseWSAux, noDbl]
  | cons c cs ih =>
    intro b
    by_cases h : isSpace c = true
    · cases b with
      | true => simpa [collapseWSAux, h] using ih true
      | false =>
        rw [collapseWSAux, if_pos h, if_neg (by simp)]
        rw [noDbl_cons]
        refine ⟨ih true, ?_⟩
        intro x hx
        rintro ⟨_, rfl⟩
        have := collapse_true_head cs ' ' hx
        simp [isSpace] at this
    · rw [collapseWSAux, if_neg (by simp [h])]
      rw [noDbl_cons]
      refine ⟨ih false, ?_⟩
      intro x hx
      rintro ⟨rfl, _⟩
      simp [isSpace] at h

/-- On text already in collapsed form (all whitespace rendered as single
spaces), the collapsing pass is the identity; with the in-run flag set it is
the identity provided the text does not begin with a space. -/
theorem collapse_fix (l : List Char) (h1 : wsOnly l) (h2 : noDbl l = true) :
    collapseWSAux l false = l ∧
      ((∀ c, l.head? = some c → isSpace c = false) → collapseWSAux l true = l) := by
  induction l with
  | nil => simp [collapseWSAux]
  | cons c cs ih =>
    have h1t : wsOnly cs := fun d hd => h1 d (List.mem_cons_of_mem _ hd)
    have h2t : noDbl cs = true := (noDbl_cons.mp h2).1
    by_cases h : isSpace c = true
    · have hcsp : c = ' ' := h1 c (List.mem_cons_self c cs) h
      subst hcsp
      have hhead : ∀ d, cs.head? = some d → isSpace d = false := by
        intro d hd
        have hne : d ≠ ' ' := by
          intro heq
          exact (noDbl_cons.mp h2).2 d hd ⟨rfl, heq⟩
        by_contra hsp
        rw [Bool.not_eq_false] at hsp
        exact hne (h1t d (head?_mem hd) hsp)
      constructor
      · rw [collapseWSAux, if_pos h, if_neg (by simp)]
        exact congrArg _ ((ih h1t h2t).2 hhead)
      · intro hh
        exact absurd h (by simp [hh ' ' rfl])
    · have hfix : collapseWSAux cs false = cs := (ih h1t h2t).1
      constructor
      · rw [collapseWSAux, if_neg (by simp [h])]
        exact congrArg _ hfix
      · intro _
        rw [collapseWSAux, if_neg (by simp [h])]
        exact congrArg _ hfix

/-! Prefix and suffix bookkeeping for strip, truncation and the
trailing-period loop. -/

theorem dropWhile_eq_drop (p : Char → Bool) (l : List Char) :
    ∃ n, l.dropWhile p = l.drop n := by
  induction l with
  | nil => exact ⟨0, rfl⟩
  | cons c cs ih =>
    by_cases h : p c
    · obtain ⟨n, hn⟩ := ih
      exact ⟨n + 1, by simpa [List.dropWhile, h] using hn⟩
    · exact ⟨0, by simp [List.dropWhile, h]⟩

theorem drop_rev (r : List Char) : ∀ n : Nat,
    (r.drop n).reverse = r.reverse.take (r.length - n) := by
  induction r with
  | nil => intro n; simp
  | cons c cs ih =>
    intro n
    cases n with
    | zero =>
      simp only [List.drop_zero, Nat.sub_zero]
      rw [List.take_of_length_le (by simp)]
    | succ m =>
      simp only [List.drop_succ_cons, List.length_cons, Nat.succ_sub_succ]
      rw [ih m, List.reverse_cons, List.take_append_eq_append_take]
      have hle : cs.length - m ≤ cs.reverse.length := by simp [Nat.sub_le]
      rw [Nat.sub_eq_zero_of_le hle, List.take_zero, List.append_nil]

theorem rev_drop_rev (l : List Char) (n : Nat) :
    (l.reverse.drop n).reverse = l.take (l.length - n) := by
  rw [drop_rev l.reverse n, List.reverse_reverse, List.length_reverse]

/-- Stripping returns a prefix of the leading-whitespace-dropped list. -/
theorem strip_take (l : List Char) :
    ∃ k, stripChars l = (l.dropWhile isSpace).take k := by
  obtain ⟨n, hn⟩ := dropWhile_eq_drop isSpace (l.dropWhile isSpace).reverse
  refine ⟨(l.dropWhile isSpace).length - n, ?_⟩
  rw [stripChars, hn, rev_drop_rev]

theorem dropWhile_head (p : Char → Bool) :
    ∀ (l : List Char) (c : Char), (l.dropWhile p).head? = some c → p c = false := by
  intro l
  induction l with
  | nil => intro c h; simp [List.dropWhile] at h
  | cons a as ih =>
    intro c h
    by_cases ha : p a
    · rw [List.dropWhile_cons, if_pos ha] at h
      exact ih c h
    · rw [List.dropWhile_cons, if_neg ha] at h
      simp only [List.head?_cons, Option.some.injEq] at h
      subst h
      simpa using ha

theorem dropWhile_eq_self {p : Char → Bool} {l : List Char} {c : Char}
    (h : l.head? = some c) (hc : p c = false) : l.dropWhile p = l := by
  cases l with
  | nil => rfl
  | cons a as =>
    simp only [List.head?_cons, Option.some.injEq] at h
    subst h
    rw [List.dropWhile_cons, if_neg (by simp [hc])]

theorem head?_take {l : List Char} {n : Nat} (h : n ≠ 0) :
    (l.take n).head? = l.head? := by
  cases l with
  | nil => simp
  | cons a as =>
    cases n with
    | zero => exact absurd rfl h
    | succ m => simp [List.take]

/-- The head of the stripped string is never whitespace. -/
theorem strip_head (l : List Char) :
    ∀ c, (stripChars l).head? = some c → isSpace c = false := by
  intro c h
  obtain ⟨k, hk⟩ := strip_take l
  rw [hk] at h
  have hkne : k ≠ 0 := by
    rintro rfl
    simp at h
  rw [head?_take hkne] at h
  exact dropWhile_head isSpace _ c h

/-- Stripping is the identity when both ends are non-whitespace. -/
theorem strip_fix {l : List Char} {c d : Char} (h1 : l.head? = some c)
    (hc : isSpace c = false) (h2 : l.getLast? = some d) (hd : isSpace d = false) :
    stripChars l = l := by
  rw [stripChars, dropWhile_eq_self h1 hc,
    dropWhile_eq_self (by rw [List.head?_reverse]; exact h2) hd, List.reverse_reverse]

/-! Properties of the trailing-period loop. -/

theorem cdr_head : ∀ l : List Char, l.head? = some '.' →
    (collapseDotsRev l).head? = some '.' := by
  intro l
  induction l using collapseDotsRev.induct with
  | case1 => intro h; simp at h
  | case2 c => intro h; simpa [collapseDotsRev] using h
  | case3 a b rest hab ih =>
    intro h
    rw [collapseDotsRev, if_pos hab]
    simp only [Bool.and_eq_true, decide_eq_true_eq] at hab
    exact ih (by simp [hab.2])
  | case4 a b rest hab =>
    intro h
    rw [collapseDotsRev, if_neg hab]
    exact h

theorem cdr_no_dd : ∀ l : List Char, ¬∃ rest, collapseDotsRev l = '.' :: '.' :: rest := by
  intro l
  induction l using collapseDotsRev.induct with
  | case1 => rintro ⟨rest, h⟩; simp [collapseDotsRev] at h
  | case2 c => rintro ⟨rest, h⟩; simp [collapseDotsRev] at h
  | case3 a b rest hab ih => rw [collapseDotsRev, if_pos hab]; exact ih
  | case4 a b rest hab =>
    rintro ⟨r, h⟩
    rw [collapseDotsRev, if_neg hab] at h
    simp only [List.cons.injEq] at h
    exact hab (by simp [h.1, h.2.1])

theorem cdr_drop : ∀ l : List Char, ∃ n, collapseDotsRev l = l.drop n := by
  intro l
  induction l using collapseDotsRev.induct with
  | case1 => exact ⟨0, rfl⟩
  | case2 c => exact ⟨0, rfl⟩
  | case3 a b rest hab ih =>
    obtain ⟨n, hn⟩ := ih
    rw [collapseDotsRev, if_pos hab]
    exact ⟨n + 1, by simpa using hn⟩
  | case4 a b rest hab => exact ⟨0, by rw [collapseDotsRev, if_neg hab, List.drop_zero]⟩

theorem trimDots_rev (l : List Char) :
    (trimDots l).reverse = collapseDotsRev l.reverse := by
  simp [trimDots]

/-- The trailing-period loop returns a prefix of its input. -/
theorem trimDots_take (l : List Char) : ∃ m, trimDots l = l.take m := by
  obtain ⟨n, hn⟩ := cdr_drop l.reverse
  exact ⟨l.length - n, by rw [trimDots, hn, rev_drop_rev]⟩

theorem endsDot_iff {l : List Char} : endsDot l = true ↔ l.reverse.head? = some '.' := by
  rcases hr : l.reverse with _ | ⟨c, cs⟩ <;> simp [endsDot, hr]

theorem endsDD_iff {l : List Char} :
    endsDD l = true ↔ ∃ rest, l.reverse = '.' :: '.' :: rest := by
  rcases hr : l.reverse with _ | ⟨c, cs⟩
  · simp [endsDD, hr]
  · rcases cs with _ | ⟨d, ds⟩ <;> simp [endsDD, hr]

/-- After the loop, the string still ends in a period and no longer ends in
two periods. -/
theorem trimDots_single_dot {l : List Char} (h : endsDot l = true) :
    endsDot (trimDots l) = true ∧ endsDD (trimDots l) = false := by
  constructor
  · rw [endsDot_iff, trimDots_rev]
    exact cdr_head l.reverse (endsDot_iff.mp h)
  · by_contra hdd
    rw [Bool.not_eq_false, endsDD_iff, trimDots_rev] at hdd
    exact cdr_no_dd l.reverse hdd

/-! Structural facts about `one_sentence` outputs. -/

theorem head?_append_left {l l₂ : List Char} (h : l ≠ []) :
    (l ++ l₂).head? = l.head? := by
  cases l with
  | nil => exact absurd rfl h
  | cons a as => rfl

theorem endsDot_ne_nil {l : List Char} (h : endsDot l = true) : l ≠ [] := by
  rintro rfl
  simp [endsDot] at h

theorem osColl_wsOnly (x : List Char) : wsOnly (osColl x) :=
  collapse_wsOnly (stripChars x) false

theorem osColl_noDbl (x : List Char) : noDbl (osColl x) = true :=
  collapse_noDbl (stripChars x) false

theorem osColl_head (x : List Char) :
    ∀ c, (osColl x).head? = some c → isSpace c = false := by
  intro c hc
  rcases hs : stripChars x with _ | ⟨a, as⟩
  · rw [osColl, collapseWS, hs] at hc
    simp [collapseWSAux] at hc
  · have ha : isSpace a = false := strip_head x a (by rw [hs]; rfl)
    have : (osColl x).head? = some a :=
      collapse_false_head (l := stripChars x) (by rw [hs]; rfl) ha
    rw [this] at hc
    obtain rfl := Option.some.injEq .. ▸ hc
    simpa using ha ▸ rfl

theorem osFill_wsOnly (x : List Char) : wsOnly (osFill x) := by
  rw [osFill]
  split
  · intro c hc hsp
    fin_cases hc <;> simp_all [isSpace]
  · exact osColl_wsOnly x

theorem osFill_noDbl (x : List Char) : noDbl (osFill x) = true := by
  rw [osFill]
  split
  · decide
  · exact osColl_noDbl x

theorem osFill_ne_nil (x : List Char) : osFill x ≠ [] := by
  rw [osFill]
  split
  · decide
  · intro h
    simp_all

theorem osFill_head (x : List Char) :
    ∀ c, (osFill x).head? = some c → isSpace c = false := by
  rw [osFill]
  split
  · intro c hc
    simp only [fillerNote, List.head?_cons, Option.some.injEq] at hc
    subst hc
    decide
  · exact osColl_head x

theorem osDot_wsOnly (x : List Char) : wsOnly (osDot x) := by
  rw [osDot]
  split
  · exact osFill_wsOnly x
  · exact wsOnly_append_single (osFill_wsOnly x) (by decide)

theorem osDot_noDbl (x : List Char) : noDbl (osDot x) = true := by
  rw [osDot]
  split
  · exact osFill_noDbl x
  · exact noDbl_append_single (osFill_noDbl x) (by decide)

theorem osDot_head (x : List Char) :
    ∀ c, (osDot x).head? = some c → isSpace c = false := by
  rw [osDot]
  split
  · exact osFill_head x
  · intro c hc
    rw [head?_append_left (osFill_ne_nil x)] at hc
    exact osFill_head x c hc

theorem osDot_endsDot (x : List Char) : endsDot (osDot x) = true := by
  rw [osDot]
  split
  · assumption
  · rw [endsDot_iff, List.reverse_append]
    rfl

theorem osDot_ne_nil (x : List Char) : osDot x ≠ [] :=
  endsDot_ne_nil (osDot_endsDot x)

/-- The structural invariants every `one_sentence` output satisfies: all its
whitespace is plain spaces, no two spaces are adjacent, it is nonempty, it
does not begin with whitespace, it has at most 60 characters, and below 60
characters it ends in exactly one period. -/
theorem one_sentence_facts (x : List Char) :
    wsOnly (one_sentence x) ∧ noDbl (one_sentence x) = true ∧
      one_sentence x ≠ [] ∧
      (∀ c, (one_sentence x).head? = some c → isSpace c = false) ∧
      (one_sentence x).length ≤ 60 ∧
      ((one_sentence x).length < 60 →
        endsDot (one_sentence x) = true ∧ endsDD (one_sentence x) = false) := by
  obtain ⟨m, hm⟩ := trimDots_take (osDot x)
  have htd : endsDot (trimDots (osDot x)) = true ∧ endsDD (trimDots (osDot x)) = false :=
    trimDots_single_dot (osDot_endsDot x)
  have htdne : trimDots (osDot x) ≠ [] := endsDot_ne_nil htd.1
  have hw : one_sentence x = (trimDots (osDot x)).take 60 := rfl
  refine ⟨?_, ?_, ?_, ?_, ?_, ?_⟩
  · rw [hw, hm, List.take_take]
    exact wsOnly_take _ (osDot_wsOnly x)
  · rw [hw, hm, List.take_take]
    exact noDbl_take _ _ (osDot_noDbl x)
  · rw [hw]
    intro hnil
    have := congrArg List.length hnil
    rw [List.length_take] at this
    have hpos : 0 < (trimDots (osDot x)).length := List.length_pos.mpr htdne
    simp only [List.length_nil] at this
    omega
  · intro c hc
    rw [hw, head?_take (by omega), hm] at hc
    rcases Nat.eq_zero_or_pos m with rfl | hmpos
    · simp at hc
    · rw [head?_take (by omega)] at hc
      exact osDot_head x c hc
  · rw [hw, List.length_take]
    exact Nat.min_le_left _ _
  · intro hlt
    rw [hw, List.length_take] at hlt
    have hlen : (trimDots (osDot x)).length < 60 := by omega
    rw [hw, List.take_of_length_le (Nat.le_of_lt hlen)]
    exact htd

/-- On a string already satisfying the output invariants, with full
60-character length and ending in neither a period nor a space, a second
`one_sentence` pass appends a period that the truncation immediately removes
again, so the pass is the identity. -/
theorem one_sentence_fixed {w : List Char} (h1 : wsOnly w) (h2 : noDbl w = true)
    (h3 : ∀ c, w.head? = some c → isSpace c = false) (h4 : w.length = 60)
    (h5 : endsDot w = false) (h6 : w.getLast? ≠ some ' ') : one_sentence w = w := by
  have hne : w ≠ [] := by
    intro h
    rw [h] at h4
    simp at h4
  obtain ⟨c, hc⟩ : ∃ c, w.head? = some c := by
    cases w with
    | nil => exact absurd rfl hne
    | cons a as => exact ⟨a, rfl⟩
  obtain ⟨d, hd⟩ : ∃ d, w.getLast? = some d := by
    rcases hw : w.getLast? with _ | d
    · rw [List.getLast?_eq_none_iff] at hw
      exact absurd hw hne
    · exact ⟨d, rfl⟩
  have hdsp : isSpace d = false := by
    by_contra hsp
    rw [Bool.not_eq_false] at hsp
    have : d = ' ' := h1 d (List.mem_of_mem_getLast? hd) hsp
    subst this
    exact h6 hd
  have hstrip : stripChars w = w := strip_fix hc (h3 c hc) hd hdsp
  have hcoll : collapseWSAux w false = w := (collapse_fix w h1 h2).1
  have hosColl : osColl w = w := by rw [osColl, hstrip, collapseWS, hcoll]
  have hosFill : osFill w = w := by
    rw [osFill, hosColl, if_neg (by omega)]
  have hosDot : osDot w = w ++ ['.'] := by
    rw [osDot, hosFill, if_neg (by simp [h5])]
  have hdne : d ≠ '.' := by
    intro hdd
    subst hdd
    have ht : endsDot w = true :=
      endsDot_iff.mpr (by rw [List.head?_reverse]; exact hd)
    rw [ht] at h5
    exact Bool.noConfusion h5
  have hrev : (w ++ ['.']).reverse = '.' :: w.reverse := by
    rw [List.reverse_append]
    rfl
  obtain ⟨rest, hrest⟩ : ∃ rest, w.reverse = d :: rest := by
    rcases hwr : w.reverse with _ | ⟨a, as⟩
    · exact absurd (List.reverse_eq_nil_iff.mp hwr) hne
    · refine ⟨as, ?_⟩
      have ha : w.getLast? = some a := by
        rw [← List.head?_reverse, hwr]
        rfl
      rw [hd] at ha
      obtain rfl : d = a := by simpa using ha
      rfl
  have htrim : trimDots (w ++ ['.']) = w ++ ['.'] := by
    rw [trimDots, hrev, hrest, collapseDotsRev, if_neg (by simp [hdne]),
      ← hrest, ← hrev, List.reverse_reverse]
  rw [one_sentence, hosDot, htrim, List.take_append_eq_append_take, h4,
    ← h4, List.take_length, Nat.sub_self, List.take_zero, List.append_nil]

/-! Concrete inputs exercising the notes sanitizer. -/

/-- Fifty-eight letters, two periods, one letter: 61 characters, so the
truncation at 60 cuts right after the internal period run. -/
def c1Input : List Char := List.replicate 58 'a' ++ ['.', '.', 'b']

/-- Twenty periods: the trailing-period loop collapses them to a single
period, leaving a 1-character output. -/
def dotsInput : List Char := List.replicate 20 '.'

/-- Sixty-one letters: the appended period lands at position 61 and the
truncation removes it again. -/
def aasInput : List Char := List.replicate 61 'a'

/-- C1 counterexample: on 58 letters + ".." + "b" the output of
`one_sentence` is the 60-character prefix ending in two periods, so the notes
value CAN end in more than one period. -/
theorem c1_counterexample : endsDD (one_sentence c1Input) = true ∧
    one_sentence c1Input = List.replicate 58 'a' ++ ['.', '.'] := by
  constructor <;> decide

/-- C1 (amended): for every input, the notes value produced by
`one_sentence` never contains a newline character, and whenever it is shorter
than 60 characters (no truncation cut) it never ends in more than one
period; only a full 60-character output can end in several periods, when the
cut lands inside an internal period run. -/
theorem c1_notes_invariant (s : List Char) :
    '\n' ∉ one_sentence s ∧
      ((one_sentence s).length < 60 → endsDD (one_sentence s) = false) := by
  obtain ⟨hws, -, -, -, -, hlt⟩ := one_sentence_facts s
  refine ⟨?_, fun h => (hlt h).2⟩
  intro hmem
  exact absurd (hws _ hmem (by decide)) (by decide)

/-- Witness for `c1_notes_invariant` at the empty input. -/
theorem c1_notes_invariant_witness :
    '\n' ∉ one_sentence [] ∧ endsDD (one_sentence []) = false :=
  ⟨(c1_notes_invariant []).1, (c1_notes_invariant []).2 (by decide)⟩

/-- C9: every `one_sentence` output has at most 60 characters, and an output
shorter than 60 characters ends with a period and does not end with two
periods, so only exactly-60-character outputs can lack the trailing
period. -/
theorem c9_short_output_single_period (s : List Char) :
    (one_sentence s).length ≤ 60 ∧
      ((one_sentence s).length < 60 →
        endsDot (one_sentence s) = true ∧ endsDD (one_sentence s) = false) := by
  obtain ⟨-, -, -, -, hle, hlt⟩ := one_sentence_facts s
  exact ⟨hle, hlt⟩

/-- Witness for `c9_short_output_single_period` at the input "hi" (which the
filler replaces, giving a 16-character output). -/
theorem c9_short_output_single_period_witness :
    endsDot (one_sentence ['h', 'i']) = true ∧
      endsDD (one_sentence ['h', 'i']) = false :=
  (c9_short_output_single_period ['h', 'i']).2 (by decide)

/-- C2 counterexample: on 61 letters the first pass truncates away the
appended period (output: 60 letters, no trailing period), yet the second
pass returns the same string — the claimed "truncation removed the period"
case does NOT make the second pass differ, because the re-appended period is
removed by the second truncation as well. -/
theorem c2_counterexample :
    one_sentence aasInput = List.replicate 60 'a' ∧
      one_sentence (one_sentence aasInput) = one_sentence aasInput := by
  constructor <;> decide

/-- C2 (amended): `one_sentence` is not idempotent — e.g. for an input of
20 periods the first pass yields "." and the second pass yields the filler —
but the failure is NOT the truncation case the claim names: whenever the
first output has the full 60 characters and ends in neither a period nor a
space (in particular whenever truncation removed the trailing period after a
normal character), the second pass re-appends a period, the truncation
removes it again, and the output is unchanged. -/
theorem c2_idempotence_characterized :
    (∀ x, (one_sentence x).length = 60 → endsDot (one_sentence x) = false →
        (one_sentence x).getLast? ≠ some ' ' →
        one_sentence (one_sentence x) = one_sentence x) ∧
      one_sentence (one_sentence dotsInput) ≠ one_sentence dotsInput := by
  constructor
  · intro x h60 hdot hsp
    obtain ⟨hws, hdbl, -, hhead, -, -⟩ := one_sentence_facts x
    exact one_sentence_fixed hws hdbl hhead h60 hdot hsp
  · decide

/-- Witness for `c2_idempotence_characterized` at the 61-letter input. -/
theorem c2_idempotence_characterized_witness :
    one_sentence (one_sentence aasInput) = one_sentence aasInput :=
  c2_idempotence_characterized.1 aasInput (by decide) (by decide) (by decide)

/-! Decimal rendering facts for the random fallbacks. -/

theorem nda_zero (f : Nat) (acc : List Char) : natDigitsAux f 0 acc = acc := by
  cases f <;> simp [natDigitsAux]

theorem nda_step (f n : Nat) (acc : List Char) (hn : 0 < n) (hf : n ≤ f) :
    natDigitsAux f n acc = natDigitsAux (f - 1) (n / 10) (digitChar (n % 10) :: acc) := by
  cases f with
  | zero => omega
  | succ g =>
    rw [natDigitsAux, if_neg (by omega)]
    rfl

/-- A five-digit number renders as exactly its five decimal digit
characters. -/
theorem natDigits5 (r : Nat) (h1 : 10000 ≤ r) (h2 : r ≤ 99999) :
    natDigits r = [digitChar (r / 10000 % 10), digitChar (r / 1000 % 10),
      digitChar (r / 100 % 10), digitChar (r / 10 % 10), digitChar (r % 10)] := by
  rw [natDigits, if_neg (by omega)]
  rw [nda_step r r [] (by omega) (by omega)]
  rw [nda_step _ _ _ (by omega) (by omega)]
  rw [Nat.div_div_eq_div_mul]
  norm_num
  rw [nda_step _ _ _ (by omega) (by omega)]
  rw [Nat.div_div_eq_div_mul]
  norm_num
  rw [nda_step _ _ _ (by omega) (by omega)]
  rw [Nat.div_div_eq_div_mul]
  norm_num
  rw [nda_step _ _ _ (by omega) (by omega)]
  rw [Nat.div_div_eq_div_mul]
  norm_num
  rw [show r / 100000 = 0 by omega, nda_zero]

theorem dig10 : ∀ k : Nat, k < 10 → (digitChar k).isDigit = true := by decide

/-- C4: for every input, `sanitize_zip` under the randomness contract of
`random.randint(10000, 99999)` returns exactly 5 digit characters, and when
filtering the input to its digits leaves exactly 5 of them, that digit
string is returned verbatim (leading zeros preserved). -/
theorem c4_zip_five_digits (z : List Char) (r : Nat) (h1 : 10000 ≤ r)
    (h2 : r ≤ 99999) :
    ((sanitize_zip z r).length = 5 ∧ ∀ c ∈ sanitize_zip z r, c.isDigit = true) ∧
      ((z.filter Char.isDigit).length = 5 →
        sanitize_zip z r = z.filter Char.isDigit) := by
  constructor
  · simp only [sanitize_zip]
    by_cases h : (z.filter Char.isDigit).length = 5
    · rw [if_neg (by simp [h])]
      refine ⟨h, ?_⟩
      intro c hc
      exact (List.mem_filter.mp hc).2
    · rw [if_pos h, natDigits5 r h1 h2]
      refine ⟨rfl, ?_⟩
      intro c hc
      simp only [List.mem_cons, List.not_mem_nil, or_false] at hc
      rcases hc with rfl | rfl | rfl | rfl | rfl <;> exact dig10 _ (by omega)
  · intro h
    simp only [sanitize_zip]
    rw [if_neg (by simp [h])]

/-- The zip input "00123ab": five digits with leading zeros survive
verbatim. -/
def zipInput : List Char := ['0', '0', '1', '2', '3', 'a', 'b']

/-- Witness for `c4_zip_five_digits` at the input "00123ab" with the random
draw 12345. -/
theorem c4_zip_five_digits_witness :
    ((sanitize_zip zipInput 12345).length = 5 ∧
        ∀ c ∈ sanitize_zip zipInput 12345, c.isDigit = true) ∧
      sanitize_zip zipInput 12345 = ['0', '0', '1', '2', '3'] := by
  have h := c4_zip_five_digits zipInput 12345 (by decide) (by decide)
  refine ⟨h.1, ?_⟩
  rw [h.2 (by decide)]
  decide

/-- C3: for every input and any random draws within the ranges the code
requests, `clamp_dob` produces the zero-padded rendering of in-range
components, and on parse success it clamps each parsed component to its
nearest bound instead of re-randomizing. -/
theorem c3_dob_clamped (d : List Char) (ry rm rd : Nat)
    (hy1 : 1920 ≤ ry) (hy2 : ry ≤ 2024) (hm1 : 1 ≤ rm) (hm2 : rm ≤ 12)
    (hd1 : 1 ≤ rd) (hd2 : rd ≤ 28) :
    dobShape (clamp_dob d ry rm rd) ∧
      (∀ y m day, parseDOB d = some (y, m, day) →
        clamp_dob d ry rm rd =
          fmtDate (min (max y 1920) 2024) (min (max m 1) 12)
            (min (max day 1) 28)) := by
  constructor
  · rcases hp : parseDOB d with - | ⟨y, m, day⟩
    · rw [clamp_dob, hp]
      exact ⟨ry, rm, rd, hy1, hy2, hm1, hm2, hd1, hd2, rfl⟩
    · rw [clamp_dob, hp]
      refine ⟨_, _, _, ?_, ?_, ?_, ?_, ?_, ?_, rfl⟩ <;> omega
  · intro y m day hp
    rw [clamp_dob, hp]

/-- The date input "1985-13-40": parseable, month and day out of range. -/
def dobInput : List Char := ['1', '9', '8', '5', '-', '1', '3', '-', '4', '0']

/-- Witness for `c3_dob_clamped` at "1985-13-40" with random draws
(1980, 5, 15): the month clamps down to 12 and the day down to 28. -/
theorem c3_dob_clamped_witness :
    dobShape (clamp_dob dobInput 1980 5 15) ∧
      clamp_dob dobInput 1980 5 15 = fmtDate 1985 12 28 := by
  have h := c3_dob_clamped dobInput 1980 5 15 (by decide) (by decide) (by decide)
    (by decide) (by decide) (by decide)
  refine ⟨h.1, ?_⟩
  have h2 := h.2 1985 13 40 (by decide)
  rw [h2, show min (max 1985 1920) 2024 = 1985 by decide,
    show min (max 13 1) 12 = 12 by decide, show min (max 40 1) 28 = 28 by decide]

/-! Equivalence of the title-casing state machine with the run-based
description. -/

theorem pyTitleAux_true (l : List Char) :
    pyTitleAux l true =
      (l.takeWhile isAsciiAlpha).map Char.toLower ++
        pyTitleAux (l.dropWhile isAsciiAlpha) false := by
  induction l with
  | nil => rfl
  | cons c cs ih =>
    by_cases h : isAsciiAlpha c = true
    · rw [pyTitleAux, if_pos h, if_pos rfl, List.takeWhile_cons, if_pos h,
        List.dropWhile_cons, if_pos h, List.map_cons, List.cons_append, ih]
    · rw [pyTitleAux, if_neg h, List.takeWhile_cons, if_neg h,
        List.dropWhile_cons, if_neg h, List.map_nil, List.nil_append,
        pyTitleAux, if_neg h]

theorem pyTitleAux_false_eq : ∀ (n : Nat) (l : List Char), l.length ≤ n →
    pyTitleAux l false = specRunTitle l := by
  intro n
  induction n with
  | zero =>
    intro l h
    rcases l with - | ⟨c, cs⟩
    · simp [pyTitleAux, specRunTitle]
    · simp at h
  | succ k ih =>
    intro l h
    rcases l with - | ⟨c, cs⟩
    · simp [pyTitleAux, specRunTitle]
    · simp only [List.length_cons, Nat.succ_le_succ_iff] at h
      by_cases hc : isAsciiAlpha c = true
      · rw [pyTitleAux, if_pos hc, if_neg (by simp), pyTitleAux_true,
          specRunTitle, if_pos hc, upperFirstLowerRest, List.cons_append]
        have hlen : (cs.dropWhile isAsciiAlpha).length ≤ k :=
          Nat.le_trans (dropWhile_len_le isAsciiAlpha cs) h
        rw [ih (cs.dropWhile isAsciiAlpha) hlen]
      · rw [pyTitleAux, if_neg hc, specRunTitle, if_neg hc, ih cs h]

/-- The state machine `str.title()` and the maximal-letter-run description
agree on every string. -/
theorem pyTitle_runs (l : List Char) : pyTitle l = specRunTitle l :=
  pyTitleAux_false_eq l.length l (Nat.le_refl _)

/-- The name "jean-luc": one whitespace-separated word, but two letter runs
separated by a hyphen. -/
def nameInput : List Char := ['j', 'e', 'a', 'n', '-', 'l', 'u', 'c']

/-- C8 counterexample: the code title-cases "jean-luc" to "Jean-Luc"
(Python `str.title()` restarts capitalization after ANY non-letter), while
the claimed whitespace-separated-word title-casing would yield
"Jean-luc". -/
theorem c8_counterexample :
    cleanName nameInput ≠ specWordName nameInput ∧
      cleanName nameInput = ['J', 'e', 'a', 'n', '-', 'L', 'u', 'c'] := by
  constructor <;> decide

/-- C8 (amended): for every input name string, the cleaned firstName or
lastName is produced by trimming whitespace, then title-casing in which the
first letter of each maximal run of consecutive letters is capitalized and
the remaining letters of the run are lowercased (any non-letter character
separates runs and passes through unchanged), then truncating to at most 12
characters. -/
theorem c8_name_cleaning (s : List Char) :
    cleanName s = (specRunTitle (stripChars s)).take 12 := by
  rw [cleanName, pyTitle_runs]

/-! Characterization of the strict array extractor's failures. -/

theorem wsThenBrace_iff (cs : List Char) :
    wsThenBrace cs = true ↔
      ∃ j : Nat, cs[j]? = some '{' ∧
        ∀ k : Nat, k < j → ∃ c, cs[k]? = some c ∧ isSpace c = true := by
  induction cs with
  | nil => simp [wsThenBrace]
  | cons a as ih =>
    by_cases ha : a = '{'
    · subst ha
      rw [wsThenBrace, if_pos rfl]
      constructor
      · intro _
        exact ⟨0, List.getElem?_cons_zero, fun k hk => absurd hk (by omega)⟩
      · intro _
        rfl
    · by_cases hsp : isSpace a = true
      · rw [wsThenBrace, if_neg ha, if_pos hsp, ih]
        constructor
        · rintro ⟨j, hj, hk⟩
          refine ⟨j + 1, by simpa using hj, ?_⟩
          intro k hk'
          cases k with
          | zero => exact ⟨a, List.getElem?_cons_zero, hsp⟩
          | succ k' =>
            obtain ⟨c, h1, h2⟩ := hk k' (by omega)
            exact ⟨c, by simpa using h1, h2⟩
        · rintro ⟨j, hj, hk⟩
          cases j with
          | zero =>
            rw [List.getElem?_cons_zero, Option.some.injEq] at hj
            exact absurd hj ha
          | succ j' =>
            refine ⟨j', by simpa using hj, ?_⟩
            intro k hk'
            obtain ⟨c, h1, h2⟩ := hk (k + 1) (by omega)
            exact ⟨c, by simpa using h1, h2⟩
      · rw [wsThenBrace, if_neg ha, if_neg hsp]
        simp only [Bool.false_eq_true, false_iff]
        rintro ⟨j, hj, hk⟩
        cases j with
        | zero =>
          rw [List.getElem?_cons_zero, Option.some.injEq] at hj
          exact ha hj
        | succ j' =>
          obtain ⟨c, h1, h2⟩ := hk 0 (by omega)
          rw [List.getElem?_cons_zero, Option.some.injEq] at h1
          subst h1
          exact hsp h2

theorem isArrStartAt_cons {c : Char} {cs : List Char} {p : Nat} :
    isArrStartAt (c :: cs) (p + 1) ↔ isArrStartAt cs p := by
  rw [isArrStartAt, isArrStartAt, List.getElem?_cons_succ, List.drop_succ_cons]

theorem findStartAux_none (t : List Char) : ∀ i : Nat,
    findStartAux t i = none ↔ ∀ p : Nat, ¬ isArrStartAt t p := by
  induction t with
  | nil =>
    intro i
    simp only [findStartAux, true_iff]
    rintro p ⟨h1, -⟩
    simp at h1
  | cons c cs ih =>
    intro i
    by_cases hc : (c = '[' && wsThenBrace cs) = true
    · rw [findStartAux, if_pos hc]
      simp only [Bool.and_eq_true, decide_eq_true_eq] at hc
      refine iff_of_false (by simp) ?_
      intro hall
      refine hall 0 ⟨?_, ?_⟩
      · rw [List.getElem?_cons_zero, hc.1]
      · rw [List.drop_succ_cons, List.drop_zero]
        exact hc.2
    · rw [findStartAux, if_neg hc, ih (i + 1)]
      constructor
      · intro hall p
        cases p with
        | zero =>
          rintro ⟨h1, h2⟩
          rw [List.getElem?_cons_zero, Option.some.injEq] at h1
          rw [List.drop_succ_cons, List.drop_zero] at h2
          exact hc (by simp [h1, h2])
        | succ p' => exact fun hp => hall p' (isArrStartAt_cons.mp hp)
      · intro hall p hp
        exact hall (p + 1) (isArrStartAt_cons.mpr hp)

theorem findStartAux_some (t : List Char) : ∀ i s : Nat,
    findStartAux t i = some s → ∃ p : Nat, isArrStartAt t p := by
  induction t with
  | nil => intro i s h; simp [findStartAux] at h
  | cons c cs ih =>
    intro i s h
    by_cases hc : (c = '[' && wsThenBrace cs) = true
    · simp only [Bool.and_eq_true, decide_eq_true_eq] at hc
      refine ⟨0, ?_, ?_⟩
      · rw [List.getElem?_cons_zero, hc.1]
      · rw [List.drop_succ_cons, List.drop_zero]
        exact hc.2
    · rw [findStartAux, if_neg hc] at h
      obtain ⟨p, hp⟩ := ih (i + 1) s h
      exact ⟨p + 1, isArrStartAt_cons.mpr hp⟩

theorem hasArrayStart_iff (t : List Char) :
    hasArrayStart t ↔ ∃ p : Nat, isArrStartAt t p := by
  constructor
  · rintro ⟨i, j, hij, hi, hj, hbet⟩
    refine ⟨i, hi, ?_⟩
    rw [wsThenBrace_iff]
    refine ⟨j - i - 1, ?_, ?_⟩
    · rw [List.getElem?_drop, show i + 1 + (j - i - 1) = j from by omega]
      exact hj
    · intro k hk
      obtain ⟨c, h1, h2⟩ := hbet (i + 1 + k) (by omega) (by omega)
      exact ⟨c, by rw [List.getElem?_drop]; exact h1, h2⟩
  · rintro ⟨p, hp, hwb⟩
    rw [wsThenBrace_iff] at hwb
    obtain ⟨j, hj, hk⟩ := hwb
    rw [List.getElem?_drop] at hj
    refine ⟨p, p + 1 + j, by omega, hp, hj, ?_⟩
    intro k hk1 hk2
    obtain ⟨c, h1, h2⟩ := hk (k - (p + 1)) (by omega)
    rw [List.getElem?_drop, show p + 1 + (k - (p + 1)) = k from by omega] at h1
    exact ⟨c, h1, h2⟩

theorem balInt_cons_lb (l : List Char) : balInt ('[' :: l) = 1 + balInt l := by
  simp [balInt, List.count_cons]
  ring

theorem balInt_cons_rb (l : List Char) : balInt (']' :: l) = balInt l - 1 := by
  simp [balInt, List.count_cons]
  ring

theorem balInt_cons_other {c : Char} (h1 : c ≠ '[') (h2 : c ≠ ']')
    (l : List Char) : balInt (c :: l) = balInt l := by
  simp [balInt, List.count_cons, h1, h2]

theorem scanAux_none_iff : ∀ (l : List Char) (d : Int) (acc : List Char),
    scanAux l d acc = none ↔
      ∀ i : Nat, ¬ (l[i]? = some ']' ∧ d + balInt (l.take (i + 1)) = 0) := by
  intro l
  induction l with
  | nil => intro d acc; simp [scanAux]
  | cons c cs ih =>
    intro d acc
    by_cases hlb : c = '['
    · subst hlb
      rw [scanAux, if_pos rfl, ih]
      constructor
      · intro h i
        cases i with
        | zero =>
          rintro ⟨h1, -⟩
          simp at h1
        | succ i' =>
          rintro ⟨h1, h2⟩
          rw [List.getElem?_cons_succ] at h1
          rw [List.take_succ_cons, balInt_cons_lb] at h2
          exact h i' ⟨h1, by omega⟩
      · intro h i
        rintro ⟨h1, h2⟩
        refine h (i + 1) ⟨by simpa using h1, ?_⟩
        rw [List.take_succ_cons, balInt_cons_lb]
        omega
    · by_cases hrb : c = ']'
      · subst hrb
        rw [scanAux, if_neg (by decide), if_pos rfl]
        by_cases hd : d - 1 = 0
        · rw [if_pos hd]
          refine iff_of_false (by simp) ?_
          intro hall
          refine hall 0 ⟨List.getElem?_cons_zero, ?_⟩
          rw [List.take_succ_cons, List.take_zero, balInt_cons_rb]
          simp only [balInt, List.count_nil]
          omega
        · rw [if_neg hd, ih]
          constructor
          · intro h i
            cases i with
            | zero =>
              rintro ⟨-, h2⟩
              rw [List.take_succ_cons, List.take_zero, balInt_cons_rb] at h2
              simp only [balInt, List.count_nil] at h2
              omega
            | succ i' =>
              rintro ⟨h1, h2⟩
              rw [List.getElem?_cons_succ] at h1
              rw [List.take_succ_cons, balInt_cons_rb] at h2
              exact h i' ⟨h1, by omega⟩
          · intro h i
            rintro ⟨h1, h2⟩
            refine h (i + 1) ⟨by simpa using h1, ?_⟩
            rw [List.take_succ_cons, balInt_cons_rb]
            omega
      · rw [scanAux, if_neg (by simp [hlb]), if_neg (by simp [hrb]), ih]
        constructor
        · intro h i
          cases i with
          | zero =>
            rintro ⟨h1, -⟩
            rw [List.getElem?_cons_zero, Option.some.injEq] at h1
            exact hrb h1
          | succ i' =>
            rintro ⟨h1, h2⟩
            rw [List.getElem?_cons_succ] at h1
            rw [List.take_succ_cons, balInt_cons_other hlb hrb] at h2
            exact h i' ⟨h1, h2⟩
        · intro h i
          rintro ⟨h1, h2⟩
          refine h (i + 1) ⟨by simpa using h1, ?_⟩
          rw [List.take_succ_cons, balInt_cons_other hlb hrb]
          exact h2

/-- C5: `parse_json_strict` fails with `NoArrayFound` exactly when no
array-open bracket is followed (with only whitespace between) by an
object-open brace; and, when the start search succeeds at position `s`, it
fails with `UnbalancedArray` exactly when no later position closes the
array-bracket depth back to zero before the end of the text. -/
theorem c5_extractor_errors (t : List Char) :
    (parse_json_strict t = Except.error JErr.noArrayFound ↔ ¬ hasArrayStart t) ∧
      (∀ s : Nat, findStartAux t 0 = some s →
        (parse_json_strict t = Except.error JErr.unbalancedArray ↔
          ∀ i : Nat, ¬ ((t.drop s)[i]? = some ']' ∧
            balInt ((t.drop s).take (i + 1)) = 0))) := by
  constructor
  · rcases hf : findStartAux t 0 with - | s
    · simp only [parse_json_strict, hf, true_iff]
      rw [hasArrayStart_iff]
      rintro ⟨p, hp⟩
      exact (findStartAux_none t 0).mp hf p hp
    · have hhas : hasArrayStart t :=
        (hasArrayStart_iff t).mpr (findStartAux_some t 0 s hf)
      simp only [parse_json_strict, hf]
      rcases hsc : scanAux (t.drop s) 0 [] with - | arr
      · refine iff_of_false ?_ (fun hn => hn hhas)
        intro h
        rw [Except.error.injEq] at h
        exact JErr.noConfusion h
      · refine iff_of_false ?_ (fun hn => hn hhas)
        intro h
        exact Except.noConfusion h
  · intro s hs
    simp only [parse_json_strict, hs]
    rcases hsc : scanAux (t.drop s) 0 [] with - | arr
    · refine iff_of_true rfl ?_
      rintro i ⟨h1, h2⟩
      exact (scanAux_none_iff (t.drop s) 0 []).mp hsc i ⟨h1, by omega⟩
    · apply iff_of_false (fun h => Except.noConfusion h)
      intro hall
      have hnone : scanAux (t.drop s) 0 [] = none := by
        rw [scanAux_none_iff]
        rintro i ⟨h1, h2⟩
        exact hall i ⟨h1, by omega⟩
      rw [hnone] at hsc
      exact Option.noConfusion hsc

/-- Text "[{": the start search succeeds at position 0 but the array is
never closed. -/
def unbInput : List Char := ['[', '{']

/-- Witness for `c5_extractor_errors` at the text "[{", where the start
search returns position 0. -/
theorem c5_extractor_errors_witness :
    (parse_json_strict unbInput = Except.error JErr.noArrayFound ↔
        ¬ hasArrayStart unbInput) ∧
      (parse_json_strict unbInput = Except.error JErr.unbalancedArray ↔
        ∀ i : Nat, ¬ ((unbInput.drop 0)[i]? = some ']' ∧
          balInt ((unbInput.drop 0).take (i + 1)) = 0)) :=
  ⟨(c5_extractor_errors unbInput).1, (c5_extractor_errors unbInput).2 0 (by decide)⟩

/-- Text "x []": contains the syntactically valid empty JSON array "[]",
with no object-open brace after its bracket. -/
def emptyArrInput : List Char := ['x', ' ', '[', ']']

/-- C10: on an input whose only array literal is the empty array "[]",
`parse_json_strict` raises `NoArrayFound` instead of returning the empty
array, because start detection requires an object-open brace to follow the
array-open bracket. -/
theorem c10_empty_array_rejected :
    parse_json_strict emptyArrInput = Except.error JErr.noArrayFound ∧
      emptyArrInput[2]? = some '[' ∧ emptyArrInput[3]? = some ']' := by
  refine ⟨rfl, by decide, by decide⟩

/-! The batch pipeline: write-trace and store-prepend facts. -/

theorem cleanLoop_acc (rnd : Nat → Rand) :
    ∀ (ps : List RawPerson) (i : Nat) (acc : List Person),
      cleanLoop rnd ps i acc = acc ++ cleanLoop rnd ps i [] := by
  intro ps
  induction ps with
  | nil => intro i acc; simp [cleanLoop]
  | cons p ps ih =>
    intro i acc
    rw [cleanLoop, cleanLoop, ih (i + 1) (acc ++ [cleanPerson p (rnd i)]),
      ih (i + 1) ([] ++ [cleanPerson p (rnd i)])]
    simp

theorem cleanLoop_length (rnd : Nat → Rand) :
    ∀ (ps : List RawPerson) (i : Nat), (cleanLoop rnd ps i []).length = ps.length := by
  intro ps
  induction ps with
  | nil => intro i; rfl
  | cons p ps ih =>
    intro i
    rw [cleanLoop, cleanLoop_acc]
    simp [ih (i + 1)]

theorem cleanLoop_get (rnd : Nat → Rand) :
    ∀ (ps : List RawPerson) (i j : Nat) (d : RawPerson), ps[j]? = some d →
      (cleanLoop rnd ps i [])[j]? = some (cleanPerson d (rnd (i + j))) := by
  intro ps
  induction ps with
  | nil => intro i j d hj; simp at hj
  | cons p ps ih =>
    intro i j d hj
    rw [cleanLoop, cleanLoop_acc]
    cases j with
    | zero =>
      rw [List.getElem?_cons_zero, Option.some.injEq] at hj
      subst hj
      simp
    | succ j' =>
      rw [List.getElem?_cons_succ] at hj
      have := ih (i + 1) j' d hj
      rw [show i + (j' + 1) = i + 1 + j' from by omega]
      simpa using this

/-- C6: after a successful batch, the single store write is exactly the
cleaned batch (in extractor order, cleaned with the consecutive random
draws) prepended to the entire previous store, so the new count is the prior
count plus the batch size and the newest records come first. -/
theorem c6_store_prepends (raw slice : List Char)
    (dec : List Char → Except Unit (List RawPerson)) (rnd : Nat → Rand)
    (stored : Option (List Person)) (data : List RawPerson)
    (h1 : parse_json_strict raw = Except.ok slice)
    (h2 : dec slice = Except.ok data) :
    ∃ fresh : List Person,
      generate_people_io ⟨Except.ok raw, dec, rnd⟩ stored =
        (Except.ok (), [fresh ++ stored.getD []]) ∧
      fresh.length = data.length ∧
      (fresh ++ stored.getD []).length = data.length + (stored.getD []).length ∧
      ∀ (j : Nat) (d : RawPerson), data[j]? = some d →
        fresh[j]? = some (cleanPerson d (rnd j)) := by
  refine ⟨cleanLoop rnd data 0 [], ?_, cleanLoop_length rnd data 0, ?_, ?_⟩
  · simp only [generate_people_io, h1, h2]
  · rw [List.length_append, cleanLoop_length rnd data 0]
  · intro j d hj
    simpa using cleanLoop_get rnd data 0 j d hj

/-- The raw model text "[{}]": extraction succeeds with the whole text as
the slice. -/
def okRaw : List Char := ['[', '{', '}', ']']

/-- A decoded record with every key missing. -/
def rawBlank : RawPerson := ⟨none, none, none, none, none⟩

/-- A decode collaborator that always returns one blank record. -/
def okDecode : List Char → Except Unit (List RawPerson) :=
  fun _ => Except.ok [rawBlank]

/-- A constant random stream within the code's requested ranges. -/
def okRnd : Nat → Rand := fun _ => ⟨1980, 6, 15, 54321⟩

/-- Witness for `c6_store_prepends` on the raw text "[{}]", one blank
record, and an empty prior store. -/
theorem c6_store_prepends_witness :
    ∃ fresh : List Person,
      generate_people_io ⟨Except.ok okRaw, okDecode, okRnd⟩ none =
        (Except.ok (), [fresh ++ (none : Option (List Person)).getD []]) ∧
      fresh.length = [rawBlank].length ∧
      (fresh ++ (none : Option (List Person)).getD []).length =
        [rawBlank].length + ((none : Option (List Person)).getD []).length ∧
      ∀ (j : Nat) (d : RawPerson), [rawBlank][j]? = some d →
        fresh[j]? = some (cleanPerson d (okRnd j)) :=
  c6_store_prepends okRaw okRaw okDecode okRnd none [rawBlank] rfl rfl

/-- C7: whenever a batch fails (generation, extraction, or JSON decoding),
`generate_people_io` performs no store write at all — the persisted store is
rewritten only after every earlier step has succeeded. -/
theorem c7_no_write_on_error (env : PipeEnv) (stored : Option (List Person))
    (e : PipeErr) (h : (generate_people_io env stored).1 = Except.error e) :
    (generate_people_io env stored).2 = [] := by
  rcases henv : env.modelText with u | raw
  · simp [generate_people_io, henv]
  · rcases hp : parse_json_strict raw with e2 | slice
    · simp [generate_people_io, henv, hp]
    · rcases hd : env.decode slice with u2 | data
      · simp [generate_people_io, henv, hp, hd]
      · exfalso
        simp only [generate_people_io, henv, hp, hd] at h
        exact Except.noConfusion h

/-- An environment whose model call fails. -/
def failEnv : PipeEnv :=
  { modelText := Except.error ()
    decode := fun _ => Except.error ()
    rnd := fun _ => ⟨1920, 1, 1, 10000⟩ }

/-- Witness for `c7_no_write_on_error` on a failing model call. -/
theorem c7_no_write_on_error_witness :
    (generate_people_io failEnv none).2 = [] :=
  c7_no_write_on_error failEnv none PipeErr.generationFailure rfl

end FictionalPeople
